import Mathlib

/-!
Shallow embedding of `src/task_2.py` (rod cutting, memoized and tabulated)
and `src/task_1.py` (greedy 3D-print batching) from the repository
`goit-algo2-hw-02`, together with proofs of the specified properties.

Conventions used in the embedding:
* Python ints are modelled as `Int`; Python's `-float('inf')` sentinel, which
  is only ever compared with and added to ints, is modelled as `⊥ : WithBot Int`.
* A Python `IndexError` (out-of-range list access) aborts the whole call, so
  fallible computations return `Option`, with `none` for an uncaught exception.
* The memo dictionary of `rod_cutting_memo` only caches values of the pure
  `helper` function, so caching is semantically transparent; the embedding
  inlines the recursion (`helperF`), driven by a fuel argument that makes the
  recursion structural.  `rod_cutting_memo` instantiates the fuel with
  `length + 1`, which always suffices because `helper n` only recurses on
  smaller `n`.
-/

namespace Task2

/-- Result dictionary of both solvers in `src/task_2.py`:
`{"max_profit": ..., "cuts": ..., "number_of_cuts": ...}`. -/
structure SolveResult where
  max_profit : WithBot Int
  cuts : List Nat
  number_of_cuts : Nat
deriving DecidableEq

/-- The `for i in range(1, n + 1)` loop body of `helper` in `rod_cutting_memo`
(src/task_2.py lines 31-39).  `count` is the number of remaining iterations,
`i` the current loop variable, `acc`/`accCuts` the running `max_profit` /
`best_cuts`.  `rec` stands for the recursive call `helper(n - i)`. -/
def memoScan (prices : List Int) (rec : Nat → Option (WithBot Int × List Nat))
    (n : Nat) : Nat → Nat → WithBot Int → List Nat → Option (WithBot Int × List Nat)
  | 0, _, acc, accCuts => some (acc, accCuts)
  | count + 1, i, acc, accCuts => do
    let currentProfit ← prices.get? (i - 1)
    let rem ← rec (n - i)
    let totalProfit := (currentProfit : WithBot Int) + rem.1
    if acc < totalProfit then
      memoScan prices rec n count (i + 1) totalProfit (i :: rem.2)
    else
      memoScan prices rec n count (i + 1) acc accCuts

/-- `helper` of `rod_cutting_memo` (src/task_2.py lines 21-41), with fuel:
`helper(0) = (0, [])`; for `n ≥ 1` scan first cuts `i = 1 .. n` starting from
`max_profit = -inf`, `best_cuts = []`. -/
def helperF (prices : List Int) : Nat → Nat → Option (WithBot Int × List Nat)
  | 0, _ => none
  | fuel + 1, n =>
    match n with
    | 0 => some ((0 : WithBot Int), [])
    | m + 1 => memoScan prices (fun k => helperF prices fuel k) (m + 1) (m + 1) 1 ⊥ []

/-- `number_of_cuts = len(cuts) - 1 if cuts else 0` (src/task_2.py lines 44, 95). -/
def numberOfCuts (cuts : List Nat) : Nat :=
  if cuts.isEmpty then 0 else cuts.length - 1

/-- `rod_cutting_memo` (src/task_2.py lines 3-49).  For `length < 0`,
`helper(length)` hits no base case and its `range(1, length + 1)` loop is
empty, so it returns `(-inf, [])` without error; this is the `if` branch. -/
def rod_cutting_memo (length : Int) (prices : List Int) : Option SolveResult :=
  if length < 0 then
    some ⟨⊥, [], 0⟩
  else
    match helperF prices (length.toNat + 1) length.toNat with
    | none => none
    | some pc => some ⟨pc.1, pc.2, numberOfCuts pc.2⟩

/-- The `for i in range(j, 0, -1)` loop of `rod_cutting_table`
(src/task_2.py lines 78-83): `i` descends from `j` to `1`; `best` and `fc`
are the running `best` and `first_cut[j]`; update on `profit >= best`. -/
def tableScan (prices : List Int) (dp : List (WithBot Int)) (j : Nat) :
    Nat → WithBot Int → Nat → Option (WithBot Int × Nat)
  | 0, best, fc => some (best, fc)
  | i + 1, best, fc => do
    let p ← prices.get? i
    let dpv ← dp.get? (j - (i + 1))
    let profit := (p : WithBot Int) + dpv
    if best ≤ profit then
      tableScan prices dp j i profit (i + 1)
    else
      tableScan prices dp j i best fc

/-- The `for j in range(1, length + 1)` loop of `rod_cutting_table`
(src/task_2.py lines 75-84), filling `dp` and `first_cut`.  `count` is the
number of remaining iterations; `j` the current sub-length. -/
def tableLoop (prices : List Int) :
    Nat → Nat → List (WithBot Int) → List Nat → Option (List (WithBot Int) × List Nat)
  | _, 0, dp, fc => some (dp, fc)
  | j, count + 1, dp, fc => do
    let bf ← tableScan prices dp j j ⊥ (fc.getD j 0)
    tableLoop prices (j + 1) count (dp.set j bf.1) (fc.set j bf.2)

/-- The `dp`/`first_cut` tables of `rod_cutting_table` for a rod of length `L`
(src/task_2.py lines 70-84): both preallocated as `[0] * (L + 1)`, then filled
for `j = 1 .. L`. -/
def tableTables (prices : List Int) (L : Nat) : Option (List (WithBot Int) × List Nat) :=
  tableLoop prices 1 L (List.replicate (L + 1) ((0 : Int) : WithBot Int)) (List.replicate (L + 1) 0)

/-- The `while rem > 0` reconstruction loop of `rod_cutting_table`
(src/task_2.py lines 87-91): append `first_cut[rem]` and subtract it from
`rem`.  `fuel` bounds the number of iterations; it models Python's potential
non-termination (if `first_cut[rem]` were `0`) as `none`, which never happens
for tables produced by `tableLoop` since `first_cut[j] ≥ 1` for `j ≥ 1`. -/
def reconstruct (fc : List Nat) : Nat → Nat → List Nat → Option (List Nat)
  | _, 0, acc => some acc
  | 0, _ + 1, _ => none
  | fuel + 1, rem + 1, acc => do
    let c ← fc.get? (rem + 1)
    reconstruct fc fuel (rem + 1 - c) (acc ++ [c])

/-- `rod_cutting_table` (src/task_2.py lines 52-100).  For `length < 0`,
`dp = [0] * (length + 1)` is the empty list and `dp[0] = 0` raises an
`IndexError`, modelled as `none`. -/
def rod_cutting_table (length : Int) (prices : List Int) : Option SolveResult :=
  if length < 0 then
    none
  else
    let L := length.toNat
    match tableTables prices L with
    | none => none
    | some dpfc =>
      match reconstruct dpfc.2 L L [] with
      | none => none
      | some built =>
        match dpfc.1.get? L with
        | none => none
        | some mp => some ⟨mp, built.reverse, numberOfCuts built.reverse⟩

/-- Profit component of `helper(n)` in `rod_cutting_memo` (⊥ when the call
raises, which never happens for `n ≤ len(prices)`). -/
def memoProfit (prices : List Int) (n : Nat) : WithBot Int :=
  (helperF prices (n + 1) n).elim ⊥ Prod.fst

/-- Cuts component of `helper(n)` in `rod_cutting_memo`. -/
def memoCuts (prices : List Int) (n : Nat) : List Nat :=
  (helperF prices (n + 1) n).elim [] Prod.snd

/-- Total profit of taking first cut `i` from a rod of length `n`:
`prices[i-1] + helper(n-i).profit`. -/
def cutVal (prices : List Int) (n i : Nat) : WithBot Int :=
  ((prices.getD (i - 1) 0 : Int) : WithBot Int) + memoProfit prices (n - i)

/-- Maximum of a list of extended integers, `⊥` for the empty list; the value
accumulated by the candidate scans of both solvers. -/
def wmax (l : List (WithBot Int)) : WithBot Int := l.foldr max ⊥

/-- Profit of candidate first cut `t` of a rod of length `n` when the profits
of the smaller sub-rods are given by `q`: `prices[t-1] + q (n - t)`. -/
def candVal (prices : List Int) (q : Nat → WithBot Int) (n t : Nat) : WithBot Int :=
  ((prices.getD (t - 1) 0 : Int) : WithBot Int) + q (n - t)

/-- Everything `helper` of `rod_cutting_memo` guarantees about sub-length `n`
once the price table covers it: the call succeeds, the profit is finite, the
cuts are positive and sum to `n`, and for `n ≥ 1` the recorded first cut `t₁`
is the smallest candidate attaining the maximal profit, with the remaining
cuts those of the sub-length `n - t₁`. -/
def MemoSpec (prices : List Int) (n : Nat) : Prop :=
  helperF prices (n + 1) n = some (memoProfit prices n, memoCuts prices n) ∧
  memoProfit prices n ≠ ⊥ ∧
  (memoCuts prices n).sum = n ∧
  (∀ x ∈ memoCuts prices n, 1 ≤ x) ∧
  (1 ≤ n →
    ∃ t₁, memoCuts prices n = t₁ :: memoCuts prices (n - t₁) ∧ 1 ≤ t₁ ∧ t₁ ≤ n ∧
      cutVal prices n t₁ = memoProfit prices n ∧
      (∀ t, 1 ≤ t → t ≤ n → cutVal prices n t ≤ memoProfit prices n) ∧
      (∀ t, 1 ≤ t → t < t₁ → cutVal prices n t < memoProfit prices n))

end Task2

namespace Task1

/-- `PrintJob` dataclass of `src/task_1.py` (lines 4-9).  `volume` is a Python
float there; the inputs of interest are exact decimal quantities, modelled as
`Rat` (the properties proved below do not depend on rounding behaviour). -/
structure PrintJob where
  id : String
  volume : Rat
  priority : Int
  print_time : Int
deriving DecidableEq

/-- `PrinterConstraints` dataclass of `src/task_1.py` (lines 11-14). -/
structure PrinterConstraints where
  max_volume : Rat
  max_items : Int
deriving DecidableEq

/-- Result dictionary of `optimize_printing`:
`{"print_order": ..., "total_time": ...}`. -/
structure PrintResult where
  print_order : List String
  total_time : Int
deriving DecidableEq

/-- Stable insertion of a job into an already priority-sorted list, placing it
before the first strictly higher-priority entry.  Python's `list.sort` with
`key=lambda job: job.priority` (src/task_1.py line 48) is a stable sort by a
total preorder, and a stable sort is uniquely determined by the comparator, so
the embedding uses stable insertion sort. -/
def insertByPriority (job : PrintJob) : List PrintJob → List PrintJob
  | [] => [job]
  | j :: rest =>
    if job.priority ≤ j.priority then job :: j :: rest
    else j :: insertByPriority job rest

/-- `jobs.sort(key=lambda job: job.priority)` (src/task_1.py line 48) as a
stable insertion sort. -/
def sortByPriority : List PrintJob → List PrintJob
  | [] => []
  | j :: rest => insertByPriority j (sortByPriority rest)

/-- The `for job in jobs` loop of `optimize_printing` together with the final
flush of the last group (src/task_1.py lines 59-83).  State: current group,
its total volume, its max print time, the accumulated order and total time. -/
def optLoop (printer : PrinterConstraints) :
    List PrintJob → List PrintJob → Rat → Int → List String → Int → List String × Int
  | [], group, _, gtime, order, total =>
    if group.isEmpty then (order, total)
    else (order ++ group.map PrintJob.id, total + gtime)
  | job :: rest, group, gvol, gtime, order, total =>
    if (group.length : Int) < printer.max_items ∧ gvol + job.volume ≤ printer.max_volume then
      optLoop printer rest (group ++ [job]) (gvol + job.volume)
        (max gtime job.print_time) order total
    else
      if group.isEmpty then
        optLoop printer rest [job] job.volume job.print_time order total
      else
        optLoop printer rest [job] job.volume job.print_time
          (order ++ group.map PrintJob.id) (total + gtime)

/-- `optimize_printing` (src/task_1.py lines 16-88): sort by priority, then
greedily group consecutive jobs under the volume and item-count constraints;
a group's time is the max of its jobs' times, the total time the sum over
groups. -/
def optimize_printing (print_jobs : List PrintJob) (constraints : PrinterConstraints) :
    PrintResult :=
  let jobs := sortByPriority print_jobs
  let ot := optLoop constraints jobs [] 0 0 [] 0
  ⟨ot.1, ot.2⟩

end Task1

namespace Task2

lemma wmax_cons (x : WithBot Int) (l : List (WithBot Int)) :
    wmax (x :: l) = max x (wmax l) := rfl

lemma le_wmax_of_mem {x : WithBot Int} {l : List (WithBot Int)} (h : x ∈ l) :
    x ≤ wmax l := by
  induction l with
  | nil => cases h
  | cons y l ih =>
    rcases List.mem_cons.mp h with h | h
    · subst h; exact le_max_left _ _
    · exact (ih h).trans (le_max_right _ _)

lemma wmax_le {l : List (WithBot Int)} {b : WithBot Int} (h : ∀ x ∈ l, x ≤ b) :
    wmax l ≤ b := by
  induction l with
  | nil => exact bot_le
  | cons y l ih =>
    exact max_le (h y (List.mem_cons_self y l)) (ih fun x hx => h x (List.mem_cons_of_mem y hx))

lemma wmax_append (l₁ l₂ : List (WithBot Int)) :
    wmax (l₁ ++ l₂) = max (wmax l₁) (wmax l₂) := by
  induction l₁ with
  | nil => exact (max_eq_right bot_le).symm
  | cons y l ih => simp only [List.cons_append, wmax_cons, ih, max_assoc]

lemma get?_eq_getD_of_lt (l : List Int) (n : Nat) (h : n < l.length) :
    l.get? n = some (l.getD n 0) := by
  simp [List.getD_eq_getElem?_getD, List.get?_eq_getElem?, List.getElem?_eq_getElem h]

/-- The memo loop only looks at `prices[t-1]` and the recursive values at
`n - t` for loop indices `t`; it is invariant under changing anything else. -/
lemma memoScan_congr (prices prices' : List Int)
    (R R' : Nat → Option (WithBot Int × List Nat)) (n : Nat) :
    ∀ count i acc accC,
      (∀ t, i ≤ t → t < i + count → prices.get? (t - 1) = prices'.get? (t - 1)) →
      (∀ t, i ≤ t → t < i + count → R (n - t) = R' (n - t)) →
      memoScan prices R n count i acc accC = memoScan prices' R' n count i acc accC := by
  intro count
  induction count with
  | zero => intro i acc accC _ _; rfl
  | succ count ih =>
    intro i acc accC hprice hrec
    have hp : prices.get? (i - 1) = prices'.get? (i - 1) :=
      hprice i le_rfl (by omega)
    have hr : R (n - i) = R' (n - i) := hrec i le_rfl (by omega)
    rw [memoScan, memoScan, hp, hr]
    cases hg : prices'.get? (i - 1) with
    | none => rfl
    | some p =>
      cases hR : R' (n - i) with
      | none => rfl
      | some v =>
        simp only [Option.bind_eq_bind, Option.some_bind]
        split
        · exact ih (i + 1) _ _ (fun t h1 h2 => hprice t (by omega) (by omega))
            (fun t h1 h2 => hrec t (by omega) (by omega))
        · exact ih (i + 1) _ _ (fun t h1 h2 => hprice t (by omega) (by omega))
            (fun t h1 h2 => hrec t (by omega) (by omega))

/-- `helper(n)` does not depend on the fuel, as long as the fuel exceeds `n`. -/
lemma helperF_fuel (prices : List Int) :
    ∀ n fuel₁ fuel₂, n < fuel₁ → n < fuel₂ →
      helperF prices fuel₁ n = helperF prices fuel₂ n := by
  intro n
  induction n using Nat.strong_induction_on with
  | _ n ih =>
    intro fuel₁ fuel₂ h₁ h₂
    obtain ⟨a, rfl⟩ : ∃ a, fuel₁ = a + 1 := ⟨fuel₁ - 1, by omega⟩
    obtain ⟨b, rfl⟩ : ∃ b, fuel₂ = b + 1 := ⟨fuel₂ - 1, by omega⟩
    cases n with
    | zero => rfl
    | succ m =>
      show memoScan prices (fun k => helperF prices a k) (m + 1) (m + 1) 1 ⊥ [] =
        memoScan prices (fun k => helperF prices b k) (m + 1) (m + 1) 1 ⊥ []
      exact memoScan_congr prices prices _ _ (m + 1) (m + 1) 1 ⊥ []
        (fun t _ _ => rfl)
        (fun t ht1 ht2 => ih (m + 1 - t) (by omega) a b (by omega) (by omega))

/-- Characterization of the memo loop over the remaining indices `i .. n`,
assuming the recursive calls succeed: it returns the maximum of the
accumulator and all remaining candidate profits, and either keeps the
accumulated choice (when nothing strictly beats it) or records the first
index attaining the maximum (Python's strict `>` update). -/
lemma memoScan_spec (prices : List Int) (R : Nat → Option (WithBot Int × List Nat))
    (n : Nat) (q : Nat → WithBot Int) (d : Nat → List Nat)
    (hR : ∀ t, 1 ≤ t → t ≤ n → R (n - t) = some (q (n - t), d (n - t)))
    (hp : ∀ t, 1 ≤ t → t ≤ n → t - 1 < prices.length) :
    ∀ count i acc accC, 1 ≤ i → i + count = n + 1 →
      ∃ A Cc, memoScan prices R n count i acc accC = some (A, Cc) ∧
        A = max acc (wmax ((List.range' i count).map (candVal prices q n))) ∧
        ((Cc = accC ∧ A = acc) ∨
          ∃ t₁, i ≤ t₁ ∧ t₁ ≤ n ∧ Cc = t₁ :: d (n - t₁) ∧ candVal prices q n t₁ = A ∧
            acc < A ∧ ∀ t, i ≤ t → t < t₁ → candVal prices q n t < A) := by
  intro count
  induction count with
  | zero =>
    intro i acc accC hi hin
    exact ⟨acc, accC, rfl, (max_eq_left bot_le).symm, Or.inl ⟨rfl, rfl⟩⟩
  | succ count ih =>
    intro i acc accC hi hin
    have hiN : i ≤ n := by omega
    have hpi : prices.get? (i - 1) = some (prices.getD (i - 1) 0) :=
      get?_eq_getD_of_lt _ _ (hp i hi hiN)
    have hRi := hR i hi hiN
    have hrange : List.range' i (count + 1) = i :: List.range' (i + 1) count := by
      simpa using List.range'_succ i count 1
    rw [memoScan, hpi, hRi]
    simp only [Option.bind_eq_bind, Option.some_bind]
    by_cases hlt : acc < ((prices.getD (i - 1) 0 : Int) : WithBot Int) + q (n - i)
    · rw [if_pos hlt]
      obtain ⟨A, Cc, hres, hA, hch⟩ :=
        ih (i + 1) (((prices.getD (i - 1) 0 : Int) : WithBot Int) + q (n - i))
          (i :: d (n - i)) (by omega) (by omega)
      refine ⟨A, Cc, hres, ?_, ?_⟩
      · rw [hrange, List.map_cons, wmax_cons, hA]
        exact (max_eq_right (le_trans hlt.le (le_max_left _ _))).symm
      · rcases hch with ⟨hCc, hAacc⟩ | ⟨t₁, ht₁i, ht₁n, hCc, hFt₁, haccA, hstrict⟩
        · refine Or.inr ⟨i, le_rfl, hiN, by rw [hCc], hAacc.symm, ?_, ?_⟩
          · rw [hAacc]; exact hlt
          · intro t ht ht'; omega
        · refine Or.inr ⟨t₁, by omega, ht₁n, hCc, hFt₁, lt_trans hlt haccA, ?_⟩
          intro t ht ht'
          rcases eq_or_lt_of_le ht with rfl | h
          · exact haccA
          · exact hstrict t h ht'
    · rw [if_neg hlt]
      have hle : ((prices.getD (i - 1) 0 : Int) : WithBot Int) + q (n - i) ≤ acc :=
        not_lt.mp hlt
      obtain ⟨A, Cc, hres, hA, hch⟩ := ih (i + 1) acc accC (by omega) (by omega)
      refine ⟨A, Cc, hres, ?_, ?_⟩
      · have hle' : candVal prices q n i ≤ acc := hle
        rw [hrange, List.map_cons, wmax_cons, ← max_assoc, max_eq_left hle', hA]
      · rcases hch with ⟨hCc, hAacc⟩ | ⟨t₁, ht₁i, ht₁n, hCc, hFt₁, haccA, hstrict⟩
        · exact Or.inl ⟨hCc, hAacc⟩
        · refine Or.inr ⟨t₁, by omega, ht₁n, hCc, hFt₁, haccA, ?_⟩
          intro t ht ht'
          rcases eq_or_lt_of_le ht with rfl | h
          · exact lt_of_le_of_lt hle haccA
          · exact hstrict t h ht'

lemma candVal_memo (prices : List Int) (n : Nat) :
    candVal prices (memoProfit prices) n = cutVal prices n := rfl

lemma memoProfit_zero (prices : List Int) : memoProfit prices 0 = ((0 : Int) : WithBot Int) := rfl

lemma memoCuts_zero (prices : List Int) : memoCuts prices 0 = [] := rfl

/-- Main characterization of the memoized solver: `MemoSpec` holds for every
sub-length covered by the price table. -/
lemma memoSpec_holds (prices : List Int) :
    ∀ n, n ≤ prices.length → MemoSpec prices n := by
  intro n
  induction n using Nat.strong_induction_on with
  | _ n ih =>
    intro hn
    match n with
    | 0 =>
      refine ⟨rfl, ?_, rfl, ?_, ?_⟩
      · exact WithBot.coe_ne_bot
      · intro x hx; cases hx
      · omega
    | m + 1 =>
      have hRt : ∀ t, 1 ≤ t → t ≤ m + 1 →
          (fun k => helperF prices (m + 1) k) (m + 1 - t) =
            some (memoProfit prices (m + 1 - t), memoCuts prices (m + 1 - t)) := by
        intro t ht1 ht2
        have h1 : helperF prices (m + 1) (m + 1 - t) =
            helperF prices (m + 1 - t + 1) (m + 1 - t) :=
          helperF_fuel prices _ _ _ (by omega) (by omega)
        have h2 := (ih (m + 1 - t) (by omega) (by omega)).1
        show helperF prices (m + 1) (m + 1 - t) = _
        rw [h1]; exact h2
      have hpt : ∀ t, 1 ≤ t → t ≤ m + 1 → t - 1 < prices.length := by
        intro t ht1 ht2; omega
      obtain ⟨A, Cc, hres, hA, hch⟩ :=
        memoScan_spec prices (fun k => helperF prices (m + 1) k) (m + 1)
          (memoProfit prices) (memoCuts prices) hRt hpt (m + 1) 1 ⊥ [] le_rfl (by omega)
      have hPA : memoProfit prices (m + 1) = A := by
        unfold memoProfit
        rw [show helperF prices (m + 1 + 1) (m + 1) = some (A, Cc) from hres]
        rfl
      have hCC : memoCuts prices (m + 1) = Cc := by
        unfold memoCuts
        rw [show helperF prices (m + 1 + 1) (m + 1) = some (A, Cc) from hres]
        rfl
      rw [max_eq_right bot_le] at hA
      simp only [candVal_memo] at hA hch
      have hne : cutVal prices (m + 1) 1 ≠ ⊥ := by
        have h1 : memoProfit prices (m + 1 - 1) ≠ ⊥ := (ih m (by omega) (by omega)).2.1
        exact WithBot.add_ne_bot.mpr ⟨WithBot.coe_ne_bot, h1⟩
      rcases hch with ⟨hCc, hAbot⟩ | ⟨t₁, ht₁1, ht₁n, hCc, hFt₁, _, hstrict⟩
      · exfalso
        have hmem : cutVal prices (m + 1) 1 ∈
            (List.range' 1 (m + 1)).map (cutVal prices (m + 1)) :=
          List.mem_map_of_mem _ (List.mem_range'_1.mpr ⟨le_rfl, by omega⟩)
        have := le_wmax_of_mem hmem
        rw [← hA, hAbot] at this
        exact hne (le_bot_iff.mp this)
      · have hub : ∀ t, 1 ≤ t → t ≤ m + 1 →
            cutVal prices (m + 1) t ≤ memoProfit prices (m + 1) := by
          intro t h1 h2
          have hmem : cutVal prices (m + 1) t ∈
              (List.range' 1 (m + 1)).map (cutVal prices (m + 1)) :=
            List.mem_map_of_mem _ (List.mem_range'_1.mpr ⟨h1, by omega⟩)
          rw [hPA, hA]
          exact le_wmax_of_mem hmem
        have hcuts : memoCuts prices (m + 1) = t₁ :: memoCuts prices (m + 1 - t₁) :=
          hCC.trans hCc
        refine ⟨?_, ?_, ?_, ?_, ?_⟩
        · rw [hPA, hCC]; exact hres
        · rw [hPA, ← hFt₁]
          have h1 : memoProfit prices (m + 1 - t₁) ≠ ⊥ :=
            (ih (m + 1 - t₁) (by omega) (by omega)).2.1
          exact WithBot.add_ne_bot.mpr ⟨WithBot.coe_ne_bot, h1⟩
        · rw [hcuts, List.sum_cons, (ih (m + 1 - t₁) (by omega) (by omega)).2.2.1]
          omega
        · intro x hx
          rw [hcuts] at hx
          rcases List.mem_cons.mp hx with rfl | hx
          · exact ht₁1
          · exact (ih (m + 1 - t₁) (by omega) (by omega)).2.2.2.1 x hx
        · intro _
          refine ⟨t₁, hcuts, ht₁1, ht₁n, ?_, hub, ?_⟩
          · rw [hPA]; exact hFt₁
          · intro t h1 h2
            rw [hPA]
            exact hstrict t h1 h2

/-- The candidate maximum over all first cuts equals the memoized profit. -/
lemma wmax_cutVal (prices : List Int) (n : Nat) (hn : n ≤ prices.length) (h1 : 1 ≤ n) :
    wmax ((List.range' 1 n).map (cutVal prices n)) = memoProfit prices n := by
  obtain ⟨t₁, _, ht₁1, ht₁n, hFt₁, hub, _⟩ := (memoSpec_holds prices n hn).2.2.2.2 h1
  refine le_antisymm (wmax_le ?_) ?_
  · intro x hx
    obtain ⟨t, htmem, rfl⟩ := List.mem_map.mp hx
    obtain ⟨h1', h2'⟩ := List.mem_range'_1.mp htmem
    exact hub t h1' (by omega)
  · rw [← hFt₁]
    exact le_wmax_of_mem (List.mem_map_of_mem _ (List.mem_range'_1.mpr ⟨ht₁1, by omega⟩))

/-- Characterization of the descending inner loop of `rod_cutting_table` over
the candidates `i, i-1, .., 1`: it computes the maximum of the accumulator and
the candidate profits, and because ties overwrite (`>=`) while scanning
downwards, the recorded first cut is the smallest candidate attaining the
maximum. -/
lemma tableScan_spec (prices : List Int) (dp : List (WithBot Int)) (j : Nat)
    (hdp : ∀ u, u < j → dp.get? u = some (memoProfit prices u))
    (hp : ∀ t, 1 ≤ t → t ≤ j → t - 1 < prices.length) :
    ∀ i acc fcAcc, i ≤ j →
      ∃ A Ff, tableScan prices dp j i acc fcAcc = some (A, Ff) ∧
        A = max acc (wmax ((List.range' 1 i).map (cutVal prices j))) ∧
        ((Ff = fcAcc ∧ A = acc ∧ ∀ t, 1 ≤ t → t ≤ i → cutVal prices j t < acc) ∨
          ∃ t₁, 1 ≤ t₁ ∧ t₁ ≤ i ∧ Ff = t₁ ∧ cutVal prices j t₁ = A ∧ acc ≤ A ∧
            ∀ t, 1 ≤ t → t < t₁ → cutVal prices j t < A) := by
  intro i
  induction i with
  | zero =>
    intro acc fcAcc hij
    refine ⟨acc, fcAcc, rfl, (max_eq_left bot_le).symm, Or.inl ⟨rfl, rfl, ?_⟩⟩
    intro t h1 h2; omega
  | succ i ih =>
    intro acc fcAcc hij
    have hpi : prices.get? i = some (prices.getD i 0) := by
      have := hp (i + 1) (by omega) hij
      exact get?_eq_getD_of_lt _ _ (by omega)
    have hdpv : dp.get? (j - (i + 1)) = some (memoProfit prices (j - (i + 1))) :=
      hdp _ (by omega)
    have hw : wmax ((List.range' 1 (i + 1)).map (cutVal prices j)) =
        max (wmax ((List.range' 1 i).map (cutVal prices j))) (cutVal prices j (i + 1)) := by
      rw [List.range'_1_concat, List.map_append, wmax_append, List.map_singleton,
        show wmax [cutVal prices j (1 + i)] = cutVal prices j (1 + i) from max_eq_left bot_le,
        Nat.add_comm 1 i]
    have hcv : cutVal prices j (i + 1) =
        ((prices.getD i 0 : Int) : WithBot Int) + memoProfit prices (j - (i + 1)) := rfl
    rw [tableScan, hpi, hdpv]
    simp only [Option.bind_eq_bind, Option.some_bind]
    by_cases hle : acc ≤ ((prices.getD i 0 : Int) : WithBot Int) + memoProfit prices (j - (i + 1))
    · rw [if_pos hle]
      obtain ⟨A, Ff, hres, hA, hch⟩ :=
        ih (((prices.getD i 0 : Int) : WithBot Int) + memoProfit prices (j - (i + 1)))
          (i + 1) (by omega)
      refine ⟨A, Ff, hres, ?_, ?_⟩
      · have hle' : acc ≤ cutVal prices j (i + 1) := by rw [hcv]; exact hle
        rw [hw, hA, ← hcv, max_eq_right (le_trans hle' (le_max_right _ _)), max_comm]
      · rcases hch with ⟨hFf, hAacc, hallt⟩ | ⟨t₁, h1, h2, hFf, hFt₁, haccA, hstrict⟩
        · refine Or.inr ⟨i + 1, by omega, le_rfl, hFf, ?_, ?_, ?_⟩
          · rw [hcv]; exact hAacc.symm
          · rw [hAacc, ← hcv]; exact hle
          · intro t ht1 ht2
            have := hallt t ht1 (by omega)
            rw [hAacc, ← hcv]
            exact this
        · refine Or.inr ⟨t₁, h1, by omega, hFf, hFt₁, ?_, hstrict⟩
          rw [← hcv] at haccA
          exact le_trans hle haccA
    · rw [if_neg hle]
      have hlt : ((prices.getD i 0 : Int) : WithBot Int) + memoProfit prices (j - (i + 1)) < acc :=
        not_le.mp hle
      obtain ⟨A, Ff, hres, hA, hch⟩ := ih acc fcAcc (by omega)
      refine ⟨A, Ff, hres, ?_, ?_⟩
      · have hlt' : cutVal prices j (i + 1) < acc := by rw [hcv]; exact hlt
        rw [hw, ← max_assoc, max_eq_left (le_trans hlt'.le (le_max_left _ _)), hA]
      · rcases hch with ⟨hFf, hAacc, hallt⟩ | ⟨t₁, h1, h2, hFf, hFt₁, haccA, hstrict⟩
        · refine Or.inl ⟨hFf, hAacc, ?_⟩
          intro t ht1 ht2
          rcases Nat.lt_or_ge t (i + 1) with h | h
          · exact hallt t ht1 (by omega)
          · have : t = i + 1 := by omega
            subst this
            rw [hcv]
            exact hlt
        · exact Or.inr ⟨t₁, h1, by omega, hFf, hFt₁, haccA, hstrict⟩

/-- One step of the outer table loop: with correct `dp` entries below `j`,
the inner scan at `j` yields exactly the memoized profit and the memoized
first cut. -/
lemma tableStep (prices : List Int) (dp : List (WithBot Int)) (j : Nat) (fcInit : Nat)
    (hjlen : j ≤ prices.length) (hj1 : 1 ≤ j)
    (hdp : ∀ u, u < j → dp.get? u = some (memoProfit prices u)) :
    tableScan prices dp j j ⊥ fcInit =
      some (memoProfit prices j, (memoCuts prices j).headD 0) := by
  obtain ⟨A, Ff, hres, hA, hch⟩ :=
    tableScan_spec prices dp j hdp (fun t h1 h2 => by omega) j ⊥ fcInit le_rfl
  rw [max_eq_right bot_le, wmax_cutVal prices j hjlen hj1] at hA
  obtain ⟨t₁ₘ, hcuts, ht₁1, ht₁n, hFt₁, hub, hstrictm⟩ :=
    (memoSpec_holds prices j hjlen).2.2.2.2 hj1
  rcases hch with ⟨_, hAbot, hall⟩ | ⟨t₁, h1, h2, hFf, hFt, hbotA, hstrict⟩
  · exact absurd (hall t₁ₘ ht₁1 ht₁n) (not_lt_bot)
  · have heq : t₁ = t₁ₘ := by
      by_contra hne
      rcases Nat.lt_or_ge t₁ t₁ₘ with hlt | hge
      · have := hstrictm t₁ h1 hlt
        rw [hFt, hA] at this
        exact lt_irrefl _ this
      · have hlt : t₁ₘ < t₁ := by omega
        have := hstrict t₁ₘ ht₁1 hlt
        rw [hFt₁, ← hA] at this
        exact lt_irrefl _ this
    rw [hres, hFf, heq, hA, hcuts]
    simp

/-- The outer loop of `rod_cutting_table` fills `dp[j]` with the memoized
profit and `first_cut[j]` with the memoized first cut, for every `j ≤ L`. -/
lemma tableLoop_spec (prices : List Int) (L : Nat) (hL : L ≤ prices.length) :
    ∀ count j dp fc, j + count = L + 1 → 1 ≤ j →
      dp.length = L + 1 → fc.length = L + 1 →
      (∀ u, u < j → dp.get? u = some (memoProfit prices u)) →
      (∀ u, 1 ≤ u → u < j → fc.get? u = some ((memoCuts prices u).headD 0)) →
      ∃ dpF fcF, tableLoop prices j count dp fc = some (dpF, fcF) ∧
        (∀ u, u < L + 1 → dpF.get? u = some (memoProfit prices u)) ∧
        (∀ u, 1 ≤ u → u < L + 1 → fcF.get? u = some ((memoCuts prices u).headD 0)) := by
  intro count
  induction count with
  | zero =>
    intro j dp fc hjc hj1 hdl hfl hdp hfc
    have hj : j = L + 1 := by omega
    subst hj
    exact ⟨dp, fc, rfl, hdp, hfc⟩
  | succ count ih =>
    intro j dp fc hjc hj1 hdl hfl hdp hfc
    have hjL : j ≤ L := by omega
    have hstep := tableStep prices dp j (fc.getD j 0) (by omega) hj1 hdp
    rw [tableLoop, hstep]
    simp only [Option.bind_eq_bind, Option.some_bind]
    refine ih (j + 1) _ _ (by omega) (by omega) (by simp [hdl]) (by simp [hfl]) ?_ ?_
    · intro u hu
      rcases Nat.lt_or_ge u j with h | h
      · rw [List.get?_set_ne _ _ (by omega)]
        exact hdp u h
      · have hu : u = j := by omega
        subst hu
        rw [List.get?_set_eq_of_lt _ (by omega : u < dp.length)]
    · intro u hu1 hu
      rcases Nat.lt_or_ge u j with h | h
      · rw [List.get?_set_ne _ _ (by omega)]
        exact hfc u hu1 h
      · have hu : u = j := by omega
        subst hu
        rw [List.get?_set_eq_of_lt _ (by omega : u < fc.length)]

/-- The reconstruction loop of `rod_cutting_table` peels off the memoized
first cut at each remaining length, so it appends exactly the memoized cut
sequence of `rem` (in that order) to the accumulator. -/
lemma reconstruct_spec (prices : List Int) (L : Nat) (fcF : List Nat)
    (hlen : L ≤ prices.length)
    (hfc : ∀ u, 1 ≤ u → u < L + 1 → fcF.get? u = some ((memoCuts prices u).headD 0)) :
    ∀ rem, rem ≤ L → ∀ fuel acc, rem ≤ fuel →
      reconstruct fcF fuel rem acc = some (acc ++ memoCuts prices rem) := by
  intro rem
  induction rem using Nat.strong_induction_on with
  | _ rem ih =>
    intro hremL fuel acc hfuel
    match rem with
    | 0 => simp [reconstruct, memoCuts_zero]
    | r + 1 =>
      obtain ⟨f, rfl⟩ : ∃ f, fuel = f + 1 := ⟨fuel - 1, by omega⟩
      obtain ⟨t₁, hcuts, ht₁1, ht₁n, _, _, _⟩ :=
        (memoSpec_holds prices (r + 1) (by omega)).2.2.2.2 (by omega)
      have hfcr : fcF.get? (r + 1) = some ((memoCuts prices (r + 1)).headD 0) :=
        hfc (r + 1) (by omega) (by omega)
      rw [reconstruct, hfcr]
      simp only [Option.bind_eq_bind, Option.some_bind]
      rw [hcuts]
      simp only [List.headD_cons]
      rw [ih (r + 1 - t₁) (by omega) (by omega) f (acc ++ [t₁]) (by omega)]
      rw [List.append_assoc, List.singleton_append]

/-- Joint characterization of the two solvers on valid inputs: the memo solver
returns the memoized profit and cuts, the table solver the same profit with
the cuts reversed. -/
lemma solvers_spec (length : Int) (prices : List Int) (h0 : 0 ≤ length)
    (hlen : length.toNat ≤ prices.length) :
    rod_cutting_memo length prices =
      some ⟨memoProfit prices length.toNat, memoCuts prices length.toNat,
        numberOfCuts (memoCuts prices length.toNat)⟩ ∧
    rod_cutting_table length prices =
      some ⟨memoProfit prices length.toNat, (memoCuts prices length.toNat).reverse,
        numberOfCuts ((memoCuts prices length.toNat).reverse)⟩ := by
  have hneg : ¬ length < 0 := by omega
  have hmemo := (memoSpec_holds prices length.toNat hlen).1
  constructor
  · rw [rod_cutting_memo, if_neg hneg, hmemo]
  · obtain ⟨dpF, fcF, hloop, hdpF, hfcF⟩ :=
      tableLoop_spec prices length.toNat hlen length.toNat 1
        (List.replicate (length.toNat + 1) ((0 : Int) : WithBot Int))
        (List.replicate (length.toNat + 1) 0)
        (by omega) le_rfl (by simp) (by simp)
        (fun u hu => by
          have hu0 : u = 0 := by omega
          subst hu0
          simp [List.get?_eq_getElem?, List.getElem?_replicate, memoProfit_zero])
        (fun u hu1 hu => by omega)
    have htab : tableTables prices length.toNat = some (dpF, fcF) := hloop
    rw [rod_cutting_table, if_neg hneg]
    dsimp only
    rw [htab]
    dsimp only
    rw [reconstruct_spec prices length.toNat fcF hlen hfcF length.toNat le_rfl length.toNat []
      le_rfl]
    rw [List.nil_append]
    dsimp only
    rw [hdpF length.toNat (by omega)]

/-- If some iteration of the memo loop hits a failing body (price access out
of range, or a failing recursive call) while all earlier iterations succeed,
the whole loop raises. -/
lemma memoScan_none (prices : List Int) (R : Nat → Option (WithBot Int × List Nat)) (n : Nat) :
    ∀ count i acc accC t, i ≤ t → t < i + count →
      (prices.get? (t - 1) = none ∨ R (n - t) = none) →
      (∀ s, i ≤ s → s < t → (prices.get? (s - 1)).isSome ∧ (R (n - s)).isSome) →
      memoScan prices R n count i acc accC = none := by
  intro count
  induction count with
  | zero => intro i acc accC t h1 h2 _ _; omega
  | succ count ih =>
    intro i acc accC t h1 h2 hfail hpre
    rcases Nat.eq_or_lt_of_le h1 with rfl | hti
    · rw [memoScan]
      rcases hfail with hf | hf
      · rw [hf]; rfl
      · cases hg : prices.get? (i - 1) with
        | none => rfl
        | some p => rw [hf]; rfl
    · obtain ⟨hs1, hs2⟩ := hpre i le_rfl hti
      obtain ⟨p, hpv⟩ := Option.isSome_iff_exists.mp hs1
      obtain ⟨v, hv⟩ := Option.isSome_iff_exists.mp hs2
      rw [memoScan, hpv, hv]
      simp only [Option.bind_eq_bind, Option.some_bind]
      split
      · exact ih (i + 1) _ _ t hti (by omega) hfail fun s hs1' hs2' => hpre s (by omega) hs2'
      · exact ih (i + 1) _ _ t hti (by omega) hfail fun s hs1' hs2' => hpre s (by omega) hs2'

/-- When the price table is shorter than the rod, `helper` always raises: the
scan reaches a first cut whose price access is out of range, or an inner call
does. -/
lemma helperF_none (prices : List Int) :
    ∀ n, prices.length < n → ∀ fuel, n < fuel → helperF prices fuel n = none := by
  intro n
  induction n using Nat.strong_induction_on with
  | _ n ih =>
    intro hn fuel hfuel
    obtain ⟨f, rfl⟩ : ∃ f, fuel = f + 1 := ⟨fuel - 1, by omega⟩
    obtain ⟨m, rfl⟩ : ∃ m, n = m + 1 := ⟨n - 1, by omega⟩
    show memoScan prices (fun k => helperF prices f k) (m + 1) (m + 1) 1 ⊥ [] = none
    rcases Nat.lt_or_ge prices.length m with hcase | hcase
    · refine memoScan_none prices _ (m + 1) (m + 1) 1 ⊥ [] 1 le_rfl (by omega)
        (Or.inr ?_) (fun s hs1 hs2 => by omega)
      show helperF prices f (m + 1 - 1) = none
      exact ih m (by omega) hcase f (by omega)
    · have hm : m = prices.length := by omega
      subst hm
      refine memoScan_none prices _ (prices.length + 1) (prices.length + 1) 1 ⊥ []
        (prices.length + 1) (by omega) (by omega) (Or.inl ?_) ?_
      · rw [show prices.length + 1 - 1 = prices.length from rfl, List.get?_eq_getElem?,
          List.getElem?_eq_none le_rfl]
      · intro s hs1 hs2
        constructor
        · rw [get?_eq_getD_of_lt _ _ (by omega)]; rfl
        · show (helperF prices f (prices.length + 1 - s)).isSome
          rw [helperF_fuel prices (prices.length + 1 - s) f (prices.length + 1 - s + 1)
            (by omega) (by omega)]
          rw [(memoSpec_holds prices (prices.length + 1 - s) (by omega)).1]
          rfl

/-- `rod_cutting_memo` raises (an uncaught `IndexError`) whenever the price
table is shorter than the (positive) rod length. -/
lemma rod_cutting_memo_short (length : Int) (prices : List Int)
    (h : (prices.length : Int) < length) : rod_cutting_memo length prices = none := by
  have h0 : ¬ length < 0 := by omega
  have hF : helperF prices (length.toNat + 1) length.toNat = none :=
    helperF_none prices length.toNat (by omega) (length.toNat + 1) (by omega)
  rw [rod_cutting_memo, if_neg h0, hF]

/-- If the price table is shorter than `L`, the outer table loop raises once
it reaches `j = len(prices) + 1`, whose inner scan starts with the
out-of-range access `prices[j-1]`. -/
lemma tableLoop_none (prices : List Int) (L : Nat) (hlen : prices.length < L) :
    ∀ count j dp fc, j + count = L + 1 → 1 ≤ j → j ≤ prices.length + 1 →
      dp.length = L + 1 →
      (∀ u, u < j → dp.get? u = some (memoProfit prices u)) →
      tableLoop prices j count dp fc = none := by
  intro count
  induction count with
  | zero => intro j dp fc h1 h2 h3 h4 h5; omega
  | succ count ih =>
    intro j dp fc hjc hj1 hjlen hdl hdp
    rcases Nat.lt_or_ge j (prices.length + 1) with hcase | hcase
    · have hstep := tableStep prices dp j (fc.getD j 0) (by omega) hj1 hdp
      rw [tableLoop, hstep]
      simp only [Option.bind_eq_bind, Option.some_bind]
      refine ih (j + 1) _ _ (by omega) (by omega) (by omega) (by simp [hdl]) ?_
      intro u hu
      rcases Nat.lt_or_ge u j with h | h
      · rw [List.get?_set_ne _ _ (by omega)]
        exact hdp u h
      · have hu' : u = j := by omega
        subst hu'
        rw [List.get?_set_eq_of_lt _ (by omega : u < dp.length)]
    · have hj : j = prices.length + 1 := by omega
      subst hj
      have hscan : tableScan prices dp (prices.length + 1) (prices.length + 1) ⊥
          (fc.getD (prices.length + 1) 0) = none := by
        rw [tableScan, List.get?_eq_getElem?, List.getElem?_eq_none le_rfl]
        rfl
      rw [tableLoop, hscan]
      rfl

/-- `rod_cutting_table` raises (an uncaught `IndexError`) whenever the price
table is shorter than the (positive) rod length. -/
lemma rod_cutting_table_short (length : Int) (prices : List Int)
    (h : (prices.length : Int) < length) : rod_cutting_table length prices = none := by
  have h0 : ¬ length < 0 := by omega
  have htab : tableTables prices length.toNat = none := by
    refine tableLoop_none prices length.toNat (by omega) length.toNat 1 _ _
      (by omega) le_rfl (by omega) (by simp) ?_
    intro u hu
    have hu0 : u = 0 := by omega
    subst hu0
    simp [List.get?_eq_getElem?, List.getElem?_replicate, memoProfit_zero]
  rw [rod_cutting_table, if_neg h0]
  dsimp only
  rw [htab]

/-- Appending a price for a new, longer segment does not change `helper` on
any sub-length the original table already covers. -/
lemma helperF_append (prices : List Int) (p : Int) :
    ∀ fuel n, n ≤ prices.length → helperF (prices ++ [p]) fuel n = helperF prices fuel n := by
  intro fuel
  induction fuel with
  | zero => intro n hn; rfl
  | succ fuel ih =>
    intro n hn
    cases n with
    | zero => rfl
    | succ m =>
      show memoScan (prices ++ [p]) (fun k => helperF (prices ++ [p]) fuel k)
          (m + 1) (m + 1) 1 ⊥ [] =
        memoScan prices (fun k => helperF prices fuel k) (m + 1) (m + 1) 1 ⊥ []
      apply memoScan_congr
      · intro t h1 h2
        exact List.get?_append (by omega : t - 1 < prices.length)
      · intro t h1 h2
        exact ih (m + 1 - t) (by omega)

lemma memoProfit_append (prices : List Int) (p : Int) (n : Nat) (hn : n ≤ prices.length) :
    memoProfit (prices ++ [p]) n = memoProfit prices n := by
  unfold memoProfit
  rw [helperF_append prices p (n + 1) n hn]

/-- Extending the price table by a non-negative price for a new maximum length
never decreases the optimal profit. -/
lemma memoProfit_mono_extend (prices : List Int) (p : Int) (L : Nat)
    (hlen : L ≤ prices.length) (hnn : ∀ x ∈ prices, 0 ≤ x) (hp : 0 ≤ p) :
    memoProfit prices L ≤ memoProfit (prices ++ [p]) (L + 1) := by
  have hlen' : L + 1 ≤ (prices ++ [p]).length := by
    simp only [List.length_append, List.length_singleton]
    omega
  obtain ⟨t₁, _, _, _, _, hub, _⟩ :=
    (memoSpec_holds (prices ++ [p]) (L + 1) hlen').2.2.2.2 (by omega)
  have h1 := hub 1 le_rfl (by omega)
  have hcv : cutVal (prices ++ [p]) (L + 1) 1 =
      (((prices ++ [p]).getD 0 0 : Int) : WithBot Int) + memoProfit prices L := by
    show (((prices ++ [p]).getD 0 0 : Int) : WithBot Int) + memoProfit (prices ++ [p]) L = _
    rw [memoProfit_append prices p L hlen]
  have hq : (0 : Int) ≤ (prices ++ [p]).getD 0 0 := by
    cases prices with
    | nil => simpa using hp
    | cons a l => simpa using hnn a (by simp)
  calc memoProfit prices L = 0 + memoProfit prices L := (zero_add _).symm
    _ ≤ (((prices ++ [p]).getD 0 0 : Int) : WithBot Int) + memoProfit prices L := by
        apply add_le_add_right
        exact_mod_cast hq
    _ = cutVal (prices ++ [p]) (L + 1) 1 := hcv.symm
    _ ≤ memoProfit (prices ++ [p]) (L + 1) := h1

end Task2

namespace Task1

lemma insertByPriority_perm (job : PrintJob) (l : List PrintJob) :
    (insertByPriority job l).Perm (job :: l) := by
  induction l with
  | nil => exact List.Perm.refl _
  | cons j rest ih =>
    rw [insertByPriority]
    split
    · exact List.Perm.refl _
    · exact ((ih.cons j).trans (List.Perm.swap job j rest))

lemma sortByPriority_perm (l : List PrintJob) : (sortByPriority l).Perm l := by
  induction l with
  | nil => exact List.Perm.refl _
  | cons j rest ih => exact (insertByPriority_perm j _).trans (ih.cons j)

/-- The order produced by the grouping loop is exactly the already-emitted
order, followed by the current group's ids, followed by the remaining jobs'
ids: no job is dropped, duplicated, or reordered past another. -/
lemma optLoop_fst (c : PrinterConstraints) :
    ∀ l group gvol gtime order total,
      (optLoop c l group gvol gtime order total).1 =
        order ++ group.map PrintJob.id ++ l.map PrintJob.id := by
  intro l
  induction l with
  | nil =>
    intro group gvol gtime order total
    rw [optLoop]
    split
    case isTrue h =>
      have hg : group = [] := List.isEmpty_iff.mp h
      subst hg
      simp
    case isFalse h => simp
  | cons job rest ih =>
    intro group gvol gtime order total
    rw [optLoop]
    split
    · rw [ih]
      simp
    · split
      case isTrue h =>
        have hg : group = [] := List.isEmpty_iff.mp h
        subst hg
        rw [ih]
        simp
      case isFalse h =>
        rw [ih]
        simp

end Task1

namespace Task2

/-- `number_of_cuts` as computed by both solvers equals
`max(0, len(cuts) - 1)` over the integers. -/
lemma numberOfCuts_int (c : List Nat) :
    ((numberOfCuts c : Nat) : Int) = max 0 ((c.length : Int) - 1) := by
  cases c with
  | nil => simp [numberOfCuts]
  | cons a l =>
    simp only [numberOfCuts, List.isEmpty_cons, List.length_cons]
    rw [if_neg (by simp)]
    push_cast
    omega

end Task2

/-- C1: for every valid input (`length ≥ 0` and a price table with at least
`length` entries), `rod_cutting_memo` and `rod_cutting_table` both succeed
and return the same `max_profit`. -/
theorem C1_solvers_agree_on_max_profit (length : Int) (prices : List Int)
    (h0 : 0 ≤ length) (hlen : length.toNat ≤ prices.length) :
    ∃ r₁ r₂, Task2.rod_cutting_memo length prices = some r₁ ∧
      Task2.rod_cutting_table length prices = some r₂ ∧
      r₁.max_profit = r₂.max_profit := by
  obtain ⟨hm, ht⟩ := Task2.solvers_spec length prices h0 hlen
  exact ⟨_, _, hm, ht, rfl⟩

theorem C1_solvers_agree_on_max_profit_witness :
    ∃ r₁ r₂, Task2.rod_cutting_memo 5 [2, 5, 7, 8, 10] = some r₁ ∧
      Task2.rod_cutting_table 5 [2, 5, 7, 8, 10] = some r₂ ∧
      r₁.max_profit = r₂.max_profit :=
  C1_solvers_agree_on_max_profit 5 [2, 5, 7, 8, 10] (by decide) (by decide)

/-- C2 counterexample: with a negative consulted price (`length=1,
prices=[-1]`) both solvers succeed and return a result built from that price
instead of failing with a typed error before any computation, and with a
negative length `rod_cutting_memo` also returns a result (`-inf`, no cuts)
rather than failing. -/
theorem C2_typed_validation_counterexample :
    Task2.rod_cutting_memo 1 [-1] = some ⟨((-1 : Int) : WithBot Int), [1], 0⟩ ∧
    Task2.rod_cutting_table 1 [-1] = some ⟨((-1 : Int) : WithBot Int), [1], 0⟩ ∧
    Task2.rod_cutting_memo (-1) [] = some ⟨⊥, [], 0⟩ :=
  ⟨by decide, by decide, by decide⟩

/-- C2 amended: the code performs no input validation and defines no typed
errors.  For `length < 0`, `rod_cutting_memo` returns `max_profit = -inf`
with no cuts and does not fail, while `rod_cutting_table` raises an uncaught
`IndexError` (modelled as `none`); for a price table shorter than a positive
`length`, both solvers raise an uncaught `IndexError` part-way through the
computation (in particular `length=4, prices=[1,2]` fails on both, but not
with a typed `InsufficientPriceData` error); negative prices are accepted
and flow into the returned profit. -/
theorem C2_amended_no_validation (length : Int) (prices : List Int) :
    (length < 0 → Task2.rod_cutting_memo length prices = some ⟨⊥, [], 0⟩ ∧
      Task2.rod_cutting_table length prices = none) ∧
    ((prices.length : Int) < length → Task2.rod_cutting_memo length prices = none ∧
      Task2.rod_cutting_table length prices = none) ∧
    Task2.rod_cutting_memo 4 [1, 2] = none ∧
    Task2.rod_cutting_table 4 [1, 2] = none ∧
    Task2.rod_cutting_memo 1 [-5] = some ⟨((-5 : Int) : WithBot Int), [1], 0⟩ := by
  refine ⟨?_, ?_, by decide, by decide, by decide⟩
  · intro h
    constructor
    · rw [Task2.rod_cutting_memo, if_pos h]
    · rw [Task2.rod_cutting_table, if_pos h]
  · intro h
    exact ⟨Task2.rod_cutting_memo_short length prices h,
      Task2.rod_cutting_table_short length prices h⟩

theorem C2_amended_no_validation_witness :
    (Task2.rod_cutting_memo (-2) [1] = some ⟨⊥, [], 0⟩ ∧
      Task2.rod_cutting_table (-2) [1] = none) ∧
    (Task2.rod_cutting_memo 4 [1, 2] = none ∧
      Task2.rod_cutting_table 4 [1, 2] = none) :=
  ⟨(C2_amended_no_validation (-2) [1]).1 (by decide),
    (C2_amended_no_validation 4 [1, 2]).2.1 (by decide)⟩

/-- C3 counterexample: for `length=4, prices=[3,5,6,7]` the memo solver does
return `max_profit = 12`, but its cuts are not `[2,2]` (two segments of
length 2 are only worth `5 + 5 = 10`). -/
theorem C3_scenario_counterexample :
    ∃ r, Task2.rod_cutting_memo 4 [3, 5, 6, 7] = some r ∧
      r.max_profit = ((12 : Int) : WithBot Int) ∧ r.cuts ≠ [2, 2] :=
  ⟨⟨((12 : Int) : WithBot Int), [1, 1, 1, 1], 3⟩, by decide, rfl, by decide⟩

/-- C3 amended: for `length=4, prices=[3,5,6,7]` both solvers return
`max_profit = 12`, achieved by four segments of length 1
(`cuts = [1,1,1,1]`, hence `number_of_cuts = 3`). -/
theorem C3_amended_scenario :
    Task2.rod_cutting_memo 4 [3, 5, 6, 7] =
      some ⟨((12 : Int) : WithBot Int), [1, 1, 1, 1], 3⟩ ∧
    Task2.rod_cutting_table 4 [3, 5, 6, 7] =
      some ⟨((12 : Int) : WithBot Int), [1, 1, 1, 1], 3⟩ :=
  ⟨by decide, by decide⟩

/-- C4 counterexample: for the valid input `length=5, prices=[2,5,7,8,10]`
the two solvers return their cut sequences in different segment orders
(memo `[1,2,2]`, table `[2,2,1]`), so the table's reversal does not put its
cuts into the memo solver's order. -/
theorem C4_same_order_counterexample :
    ∃ r₁ r₂, Task2.rod_cutting_memo 5 [2, 5, 7, 8, 10] = some r₁ ∧
      Task2.rod_cutting_table 5 [2, 5, 7, 8, 10] = some r₂ ∧ r₁.cuts ≠ r₂.cuts :=
  ⟨⟨((12 : Int) : WithBot Int), [1, 2, 2], 2⟩, ⟨((12 : Int) : WithBot Int), [2, 2, 1], 2⟩,
    by decide, by decide, by decide⟩

/-- C4 amended: `rod_cutting_table` builds its cut list by repeatedly
appending `first_cut[rem]` and decrementing `rem` until 0, then reverses it;
since both solvers peel the same (smallest optimal) first cut at every
remaining length, the table solver's returned cuts are exactly the REVERSE of
the memo solver's cuts — the same segment order only when that sequence is a
palindrome. -/
theorem C4_amended_cuts_reversed (length : Int) (prices : List Int)
    (h0 : 0 ≤ length) (hlen : length.toNat ≤ prices.length) :
    ∃ r₁ r₂, Task2.rod_cutting_memo length prices = some r₁ ∧
      Task2.rod_cutting_table length prices = some r₂ ∧
      r₂.cuts = r₁.cuts.reverse := by
  obtain ⟨hm, ht⟩ := Task2.solvers_spec length prices h0 hlen
  exact ⟨_, _, hm, ht, rfl⟩

theorem C4_amended_cuts_reversed_witness :
    ∃ r₁ r₂, Task2.rod_cutting_memo 5 [2, 5, 7, 8, 10] = some r₁ ∧
      Task2.rod_cutting_table 5 [2, 5, 7, 8, 10] = some r₂ ∧
      r₂.cuts = r₁.cuts.reverse :=
  C4_amended_cuts_reversed 5 [2, 5, 7, 8, 10] (by decide) (by decide)

/-- C5: for every sub-length `j` of a valid instance, both solvers record the
same first cut `i₁`: the head of the memo solver's cut list and the table
solver's `first_cut[j]`, and it is the smallest segment length attaining the
maximal profit (`dp[j]`, which equals the memoized profit). -/
theorem C5_smallest_first_cut (prices : List Int) (L j : Nat)
    (hj1 : 1 ≤ j) (hjL : j ≤ L) (hlen : L ≤ prices.length) :
    ∃ i₁, (Task2.memoCuts prices j).head? = some i₁ ∧ 1 ≤ i₁ ∧ i₁ ≤ j ∧
      Task2.cutVal prices j i₁ = Task2.memoProfit prices j ∧
      (∀ i, 1 ≤ i → i ≤ j → Task2.cutVal prices j i ≤ Task2.memoProfit prices j) ∧
      (∀ i, 1 ≤ i → i < i₁ → Task2.cutVal prices j i < Task2.memoProfit prices j) ∧
      ∃ dpfc, Task2.tableTables prices L = some dpfc ∧
        dpfc.2.get? j = some i₁ ∧ dpfc.1.get? j = some (Task2.memoProfit prices j) := by
  obtain ⟨t₁, hcuts, ht1, htj, hft, hub, hstrict⟩ :=
    (Task2.memoSpec_holds prices j (by omega)).2.2.2.2 hj1
  obtain ⟨dpF, fcF, hloop, hdpF, hfcF⟩ :=
    Task2.tableLoop_spec prices L hlen L 1
      (List.replicate (L + 1) ((0 : Int) : WithBot Int)) (List.replicate (L + 1) 0)
      (by omega) le_rfl (by simp) (by simp)
      (fun u hu => by
        have hu0 : u = 0 := by omega
        subst hu0
        simp [List.get?_eq_getElem?, List.getElem?_replicate, Task2.memoProfit_zero])
      (fun u hu1 hu => by omega)
  refine ⟨t₁, by rw [hcuts]; rfl, ht1, htj, hft, hub, hstrict, (dpF, fcF), hloop, ?_, ?_⟩
  · show fcF.get? j = some t₁
    rw [hfcF j hj1 (by omega), hcuts]
    rfl
  · exact hdpF j (by omega)

theorem C5_smallest_first_cut_witness :
    ∃ i₁, (Task2.memoCuts [2, 5, 7, 8, 10] 4).head? = some i₁ ∧ 1 ≤ i₁ ∧ i₁ ≤ 4 ∧
      Task2.cutVal [2, 5, 7, 8, 10] 4 i₁ = Task2.memoProfit [2, 5, 7, 8, 10] 4 ∧
      (∀ i, 1 ≤ i → i ≤ 4 →
        Task2.cutVal [2, 5, 7, 8, 10] 4 i ≤ Task2.memoProfit [2, 5, 7, 8, 10] 4) ∧
      (∀ i, 1 ≤ i → i < i₁ →
        Task2.cutVal [2, 5, 7, 8, 10] 4 i < Task2.memoProfit [2, 5, 7, 8, 10] 4) ∧
      ∃ dpfc, Task2.tableTables [2, 5, 7, 8, 10] 5 = some dpfc ∧
        dpfc.2.get? 4 = some i₁ ∧ dpfc.1.get? 4 = some (Task2.memoProfit [2, 5, 7, 8, 10] 4) :=
  C5_smallest_first_cut [2, 5, 7, 8, 10] 5 4 (by decide) (by decide) (by decide)

/-- C6: on every valid input, both solvers return a result whose cuts sum to
the rod length, are empty exactly for a zero-length rod, consist of positive
segment lengths, and whose `number_of_cuts` is `max(0, len(cuts) - 1)`. -/
theorem C6_result_invariants (length : Int) (prices : List Int)
    (h0 : 0 ≤ length) (hlen : length.toNat ≤ prices.length) :
    ∃ r₁ r₂, Task2.rod_cutting_memo length prices = some r₁ ∧
      Task2.rod_cutting_table length prices = some r₂ ∧
      (r₁.cuts.sum : Int) = length ∧ (r₂.cuts.sum : Int) = length ∧
      (r₁.cuts = [] ↔ length = 0) ∧ (r₂.cuts = [] ↔ length = 0) ∧
      (∀ x ∈ r₁.cuts, 1 ≤ x) ∧ (∀ x ∈ r₂.cuts, 1 ≤ x) ∧
      (r₁.number_of_cuts : Int) = max 0 ((r₁.cuts.length : Int) - 1) ∧
      (r₂.number_of_cuts : Int) = max 0 ((r₂.cuts.length : Int) - 1) := by
  obtain ⟨hm, ht⟩ := Task2.solvers_spec length prices h0 hlen
  obtain ⟨_, _, hsum, hpos, hhead⟩ := Task2.memoSpec_holds prices length.toNat hlen
  have hLlen : (length.toNat : Int) = length := Int.toNat_of_nonneg h0
  have hsumInt : ((Task2.memoCuts prices length.toNat).sum : Int) = length := by
    rw [hsum, hLlen]
  have hempty : Task2.memoCuts prices length.toNat = [] ↔ length = 0 := by
    constructor
    · intro he
      by_contra hne
      obtain ⟨t₁, hcuts, _⟩ := hhead (by omega)
      rw [hcuts] at he
      cases he
    · intro he
      have : length.toNat = 0 := by omega
      rw [this, Task2.memoCuts_zero]
  refine ⟨_, _, hm, ht, hsumInt, ?_, hempty, ?_, hpos, ?_, ?_, ?_⟩
  · show (((Task2.memoCuts prices length.toNat).reverse).sum : Int) = length
    rw [List.sum_reverse]
    exact hsumInt
  · show (Task2.memoCuts prices length.toNat).reverse = [] ↔ length = 0
    rw [List.reverse_eq_nil_iff]
    exact hempty
  · show ∀ x ∈ (Task2.memoCuts prices length.toNat).reverse, 1 ≤ x
    intro x hx
    exact hpos x (List.mem_reverse.mp hx)
  · exact Task2.numberOfCuts_int _
  · show ((Task2.numberOfCuts ((Task2.memoCuts prices length.toNat).reverse) : Nat) : Int) = _
    exact Task2.numberOfCuts_int _

theorem C6_result_invariants_witness :
    ∃ r₁ r₂, Task2.rod_cutting_memo 5 [2, 5, 7, 8, 10] = some r₁ ∧
      Task2.rod_cutting_table 5 [2, 5, 7, 8, 10] = some r₂ ∧
      (r₁.cuts.sum : Int) = 5 ∧ (r₂.cuts.sum : Int) = 5 ∧
      (r₁.cuts = [] ↔ (5 : Int) = 0) ∧ (r₂.cuts = [] ↔ (5 : Int) = 0) ∧
      (∀ x ∈ r₁.cuts, 1 ≤ x) ∧ (∀ x ∈ r₂.cuts, 1 ≤ x) ∧
      (r₁.number_of_cuts : Int) = max 0 ((r₁.cuts.length : Int) - 1) ∧
      (r₂.number_of_cuts : Int) = max 0 ((r₂.cuts.length : Int) - 1) :=
  C6_result_invariants 5 [2, 5, 7, 8, 10] (by decide) (by decide)

/-- C7: extending the price table with a non-negative price `p` for a new
maximum length and re-solving with `length + 1` never decreases `max_profit`,
for either solver. -/
theorem C7_monotone_extension (length : Int) (prices : List Int) (p : Int)
    (h0 : 0 ≤ length) (hlen : length.toNat ≤ prices.length)
    (hnn : ∀ x ∈ prices, 0 ≤ x) (hp : 0 ≤ p) :
    ∃ r₁ r₂ r₃ r₄,
      Task2.rod_cutting_memo length prices = some r₁ ∧
      Task2.rod_cutting_memo (length + 1) (prices ++ [p]) = some r₂ ∧
      Task2.rod_cutting_table length prices = some r₃ ∧
      Task2.rod_cutting_table (length + 1) (prices ++ [p]) = some r₄ ∧
      r₁.max_profit ≤ r₂.max_profit ∧ r₃.max_profit ≤ r₄.max_profit := by
  have hlen' : (length + 1).toNat ≤ (prices ++ [p]).length := by
    simp only [List.length_append, List.length_singleton]
    omega
  obtain ⟨hm, ht⟩ := Task2.solvers_spec length prices h0 hlen
  obtain ⟨hm', ht'⟩ := Task2.solvers_spec (length + 1) (prices ++ [p]) (by omega) hlen'
  have htn : (length + 1).toNat = length.toNat + 1 := by omega
  have hmono := Task2.memoProfit_mono_extend prices p length.toNat hlen hnn hp
  refine ⟨_, _, _, _, hm, hm', ht, ht', ?_, ?_⟩
  · show Task2.memoProfit prices length.toNat ≤
      Task2.memoProfit (prices ++ [p]) (length + 1).toNat
    rw [htn]
    exact hmono
  · show Task2.memoProfit prices length.toNat ≤
      Task2.memoProfit (prices ++ [p]) (length + 1).toNat
    rw [htn]
    exact hmono

theorem C7_monotone_extension_witness :
    ∃ r₁ r₂ r₃ r₄,
      Task2.rod_cutting_memo 2 [1, 3] = some r₁ ∧
      Task2.rod_cutting_memo (2 + 1) ([1, 3] ++ [0]) = some r₂ ∧
      Task2.rod_cutting_table 2 [1, 3] = some r₃ ∧
      Task2.rod_cutting_table (2 + 1) ([1, 3] ++ [0]) = some r₄ ∧
      r₁.max_profit ≤ r₂.max_profit ∧ r₃.max_profit ≤ r₄.max_profit :=
  C7_monotone_extension 2 [1, 3] 0 (by decide) (by decide) (by decide) (by decide)

/-- C8: for `length = 0` and any price table, both solvers return
`max_profit = 0`, no cuts, and `number_of_cuts = 0`. -/
theorem C8_zero_length (prices : List Int) :
    Task2.rod_cutting_memo 0 prices = some ⟨((0 : Int) : WithBot Int), [], 0⟩ ∧
    Task2.rod_cutting_table 0 prices = some ⟨((0 : Int) : WithBot Int), [], 0⟩ :=
  ⟨rfl, rfl⟩

/-- C9: for every list of print jobs and any constraints, the print order
returned by `optimize_printing` is a permutation of the input job ids — no
job is dropped or duplicated, whatever `max_volume` and `max_items` are. -/
theorem C9_print_order_is_permutation (jobs : List Task1.PrintJob)
    (c : Task1.PrinterConstraints) :
    (Task1.optimize_printing jobs c).print_order.Perm (jobs.map Task1.PrintJob.id) := by
  show (Task1.optLoop c (Task1.sortByPriority jobs) [] 0 0 [] 0).1.Perm _
  rw [Task1.optLoop_fst]
  simp only [List.map_nil, List.nil_append]
  exact (Task1.sortByPriority_perm jobs).map Task1.PrintJob.id

/-- C10: a job that violates the constraints on its own is not rejected: it
is scheduled as a singleton group whose `print_time` is added to the total.
The general statement covers any such job (volume above `max_volume`, or
`max_items ≤ 0`); the concrete instance shows an oversized middle job
(volume 1000 > 300) scheduled between two fitting jobs, contributing its
print time (total `10 + 99 + 10 = 119`). -/
theorem C10_oversized_job_scheduled (job : Task1.PrintJob) (c : Task1.PrinterConstraints)
    (h : ¬ ((0 : Int) < c.max_items ∧ job.volume ≤ c.max_volume)) :
    Task1.optimize_printing [job] c = ⟨[job.id], job.print_time⟩ ∧
    Task1.optimize_printing
      [⟨"M1", 100, 1, 10⟩, ⟨"M2", 1000, 1, 99⟩, ⟨"M3", 100, 1, 10⟩] ⟨300, 2⟩ =
      ⟨["M1", "M2", "M3"], 119⟩ := by
  constructor
  · have hcond : ¬ (((List.length ([] : List Task1.PrintJob) : Nat) : Int) < c.max_items ∧
        (0 : Rat) + job.volume ≤ c.max_volume) := by
      simpa using h
    show Task1.PrintResult.mk (Task1.optLoop c [job] [] 0 0 [] 0).1
        (Task1.optLoop c [job] [] 0 0 [] 0).2 = _
    rw [Task1.optLoop, if_neg hcond]
    rw [if_pos (by rfl : ([] : List Task1.PrintJob).isEmpty = true)]
    rw [Task1.optLoop]
    rw [if_neg (by simp : ¬ ([job].isEmpty = true))]
    simp
  · norm_num [Task1.optimize_printing, Task1.sortByPriority, Task1.insertByPriority,
      Task1.optLoop]

theorem C10_oversized_job_scheduled_witness :
    Task1.optimize_printing [⟨"A", 500, 1, 60⟩] ⟨300, 2⟩ = ⟨["A"], 60⟩ ∧
    Task1.optimize_printing
      [⟨"M1", 100, 1, 10⟩, ⟨"M2", 1000, 1, 99⟩, ⟨"M3", 100, 1, 10⟩] ⟨300, 2⟩ =
      ⟨["M1", "M2", "M3"], 119⟩ :=
  C10_oversized_job_scheduled ⟨"A", 500, 1, 60⟩ ⟨300, 2⟩ (by norm_num)

